import Mathlib

/-!
Verification development for the staking/bonding ledger and coin
arithmetic of the cosmos-sdk corpus.

Decimal amounts (`sdk.Dec` / `sdk.Rat`) are embedded as `ℚ`, token
counts (`int64`) as `ℤ` (overflow is outside the scope of the claims
treated here).  Fallible or panicking operations return `Option`.
-/

namespace CosmosSDK

/-! ## Coin arithmetic (`types.DecCoin`, `types.DecCoins`) -/

/-- Coin with a decimal amount; mirrors `DecCoin{Denom string; Amount sdk.Dec}`. -/
structure DecCoin where
  denom : String
  amount : ℚ
  deriving DecidableEq, Repr

/-- `DecCoin.Plus`: adds amounts of two coins with the same denom; a coin
with a different denom is ignored and the receiver is returned unchanged. -/
def DecCoin.Plus (coin coinB : DecCoin) : DecCoin :=
  if coin.denom = coinB.denom then ⟨coin.denom, coin.amount + coinB.amount⟩
  else coin

/-- `DecCoins`: a list of decimal coins. -/
abbrev DecCoins := List DecCoin

/-- Three-way string comparison, mirroring Go `strings.Compare`
(lexicographic; -1 / 0 / +1 become `lt` / `eq` / `gt`). -/
def strCompare (a b : String) : Ordering :=
  if a < b then .lt else if a = b then .eq else .gt

/-- `DecCoins.Plus`: combines two sets of coins by a sorted merge on the
denomination; equal denominations have their amounts added and a pair whose
sum is zero is dropped ("CONTRACT: Plus will never return Coins where one
Coin has a 0 amount"). -/
def DecCoins.Plus : DecCoins → DecCoins → DecCoins
  | [], coinsB => coinsB
  | coins, [] => coins
  | coinA :: coins, coinB :: coinsB =>
    match strCompare coinA.denom coinB.denom with
    | .lt => coinA :: DecCoins.Plus coins (coinB :: coinsB)
    | .eq =>
      if coinA.amount + coinB.amount = 0 then DecCoins.Plus coins coinsB
      else coinA.Plus coinB :: DecCoins.Plus coins coinsB
    | .gt => coinB :: DecCoins.Plus (coinA :: coins) coinsB
termination_by a b => a.length + b.length

/-- `DecCoins.Mul`, multiply all the coins by a multiple.
Modelled from the spec: the source text builds each product with a
`DecCoins{Denom: ..., Amount: ...}` composite literal, i.e. a slice type
where the element type `DecCoin` is required — a Go compile-time type
error; the spec ("`Mul(coins, scalar)` distributes the scalar across every
entry") together with the source's own doc comment fixes the intent, which
is embedded here. -/
def DecCoins.Mul (coins : DecCoins) (multiple : ℚ) : DecCoins :=
  coins.map (fun coin => ⟨coin.denom, coin.amount * multiple⟩)

/-- Total amount a list of coins carries for denomination `d`
(0 when absent; duplicate entries are summed). -/
def amountOf : DecCoins → String → ℚ
  | [], _ => 0
  | c :: cs, d => (if c.denom = d then c.amount else 0) + amountOf cs d

/-- A canonical coin list: strictly sorted by denomination (hence
denominations are unique) and free of zero amounts. -/
def Canonical (l : DecCoins) : Prop :=
  List.Pairwise (fun x y => x.denom < y.denom) l ∧ ∀ c ∈ l, c.amount ≠ 0

instance : DecidablePred Canonical := fun l => by
  unfold Canonical; infer_instance

lemma strCompare_eq_lt {a b : String} : strCompare a b = .lt ↔ a < b := by
  unfold strCompare
  split
  · simp_all
  · split <;> simp_all

lemma strCompare_eq_eq {a b : String} : strCompare a b = .eq ↔ a = b := by
  unfold strCompare
  split
  · rename_i h
    constructor
    · intro hc; exact absurd hc (by simp)
    · intro he; exact absurd (he ▸ h) (lt_irrefl a)
  · split <;> simp_all

lemma strCompare_eq_gt {a b : String} : strCompare a b = .gt ↔ b < a := by
  unfold strCompare
  split
  · rename_i h
    constructor
    · intro hc; exact absurd hc (by simp)
    · intro hg; exact absurd (h.trans hg) (lt_irrefl a)
  · split
    · rename_i h he
      constructor
      · intro hc; exact absurd hc (by simp)
      · intro hg; exact absurd (he ▸ hg) (lt_irrefl b)
    · rename_i h he
      rcases lt_trichotomy a b with hl | hq | hr
      · exact absurd hl h
      · exact absurd hq he
      · simp [hr]

/-- `Plus` is denotationally additive: for every denomination, the merged
list carries the sum of the amounts the two inputs carry. -/
lemma amountOf_Plus (a b : DecCoins) :
    ∀ d, amountOf (a.Plus b) d = amountOf a d + amountOf b d := by
  induction a, b using DecCoins.Plus.induct with
  | case1 b =>
    intro d; simp [DecCoins.Plus, amountOf]
  | case2 a h =>
    intro d
    cases a with
    | nil => exact absurd rfl h
    | cons x xs => simp [DecCoins.Plus, amountOf]
  | case3 coinA coins coinB coinsB h ih =>
    intro d
    simp only [DecCoins.Plus, h, amountOf, ih]
    ring
  | case4 coinA coins coinB coinsB h hz ih =>
    intro d
    have he : coinA.denom = coinB.denom := strCompare_eq_eq.mp h
    simp only [DecCoins.Plus, h, if_pos hz, amountOf, ih]
    by_cases hd : coinA.denom = d
    · rw [if_pos hd, if_pos (he ▸ hd)]
      linarith
    · rw [if_neg hd, if_neg (he ▸ hd)]
      ring
  | case5 coinA coins coinB coinsB h hz ih =>
    intro d
    have he : coinA.denom = coinB.denom := strCompare_eq_eq.mp h
    simp only [DecCoins.Plus, h, if_neg hz, amountOf, ih, DecCoin.Plus, if_pos he]
    by_cases hd : coinA.denom = d
    · rw [if_pos hd, if_pos hd, if_pos (he ▸ hd)]
      ring
    · rw [if_neg hd, if_neg hd, if_neg (he ▸ hd)]
      ring
  | case6 coinA coins coinB coinsB h ih =>
    intro d
    simp only [DecCoins.Plus, h, amountOf, ih]
    ring

/-- Every denomination in the merged list is a denomination of one of the
two inputs. -/
lemma denom_mem_Plus (a b : DecCoins) :
    ∀ c ∈ a.Plus b, (∃ x ∈ a, c.denom = x.denom) ∨ ∃ y ∈ b, c.denom = y.denom := by
  induction a, b using DecCoins.Plus.induct with
  | case1 b =>
    intro c hc
    right; exact ⟨c, by simpa [DecCoins.Plus] using hc, rfl⟩
  | case2 a h =>
    intro c hc
    cases a with
    | nil => exact absurd rfl h
    | cons x xs =>
      left; exact ⟨c, by simpa [DecCoins.Plus] using hc, rfl⟩
  | case3 coinA coins coinB coinsB h ih =>
    intro c hc
    simp only [DecCoins.Plus, h, List.mem_cons] at hc
    rcases hc with rfl | hc
    · left; exact ⟨c, List.mem_cons_self _ _, rfl⟩
    · rcases ih c hc with ⟨x, hx, hd⟩ | ⟨y, hy, hd⟩
      · exact .inl ⟨x, List.mem_cons_of_mem _ hx, hd⟩
      · exact .inr ⟨y, hy, hd⟩
  | case4 coinA coins coinB coinsB h hz ih =>
    intro c hc
    simp only [DecCoins.Plus, h, if_pos hz] at hc
    rcases ih c hc with ⟨x, hx, hd⟩ | ⟨y, hy, hd⟩
    · exact .inl ⟨x, List.mem_cons_of_mem _ hx, hd⟩
    · exact .inr ⟨y, List.mem_cons_of_mem _ hy, hd⟩
  | case5 coinA coins coinB coinsB h hz ih =>
    intro c hc
    simp only [DecCoins.Plus, h, if_neg hz, List.mem_cons] at hc
    rcases hc with rfl | hc
    · left
      refine ⟨coinA, List.mem_cons_self _ _, ?_⟩
      simp [DecCoin.Plus, strCompare_eq_eq.mp h]
    · rcases ih c hc with ⟨x, hx, hd⟩ | ⟨y, hy, hd⟩
      · exact .inl ⟨x, List.mem_cons_of_mem _ hx, hd⟩
      · exact .inr ⟨y, List.mem_cons_of_mem _ hy, hd⟩
  | case6 coinA coins coinB coinsB h ih =>
    intro c hc
    simp only [DecCoins.Plus, h, List.mem_cons] at hc
    rcases hc with rfl | hc
    · right; exact ⟨c, List.mem_cons_self _ _, rfl⟩
    · rcases ih c hc with ⟨x, hx, hd⟩ | ⟨y, hy, hd⟩
      · exact .inl ⟨x, hx, hd⟩
      · exact .inr ⟨y, List.mem_cons_of_mem _ hy, hd⟩

/-- On zero-free inputs, `Plus` never emits a zero-amount coin
(the source contract on `DecCoins.Plus`). -/
lemma Plus_no_zero (a b : DecCoins)
    (ha : ∀ c ∈ a, c.amount ≠ 0) (hb : ∀ c ∈ b, c.amount ≠ 0) :
    ∀ c ∈ a.Plus b, c.amount ≠ 0 := by
  induction a, b using DecCoins.Plus.induct with
  | case1 b =>
    intro c hc
    exact hb c (by simpa [DecCoins.Plus] using hc)
  | case2 a h =>
    intro c hc
    cases a with
    | nil => exact absurd rfl h
    | cons x xs => exact ha c (by simpa [DecCoins.Plus] using hc)
  | case3 coinA coins coinB coinsB h ih =>
    intro c hc
    simp only [DecCoins.Plus, h, List.mem_cons] at hc
    rcases hc with rfl | hc
    · exact ha c (List.mem_cons_self _ _)
    · exact ih (fun x hx => ha x (List.mem_cons_of_mem _ hx)) hb c hc
  | case4 coinA coins coinB coinsB h hz ih =>
    intro c hc
    simp only [DecCoins.Plus, h, if_pos hz] at hc
    exact ih (fun x hx => ha x (List.mem_cons_of_mem _ hx))
      (fun y hy => hb y (List.mem_cons_of_mem _ hy)) c hc
  | case5 coinA coins coinB coinsB h hz ih =>
    intro c hc
    simp only [DecCoins.Plus, h, if_neg hz, List.mem_cons] at hc
    rcases hc with rfl | hc
    · simpa [DecCoin.Plus, strCompare_eq_eq.mp h] using hz
    · exact ih (fun x hx => ha x (List.mem_cons_of_mem _ hx))
        (fun y hy => hb y (List.mem_cons_of_mem _ hy)) c hc
  | case6 coinA coins coinB coinsB h ih =>
    intro c hc
    simp only [DecCoins.Plus, h, List.mem_cons] at hc
    rcases hc with rfl | hc
    · exact hb c (List.mem_cons_self _ _)
    · exact ih ha (fun y hy => hb y (List.mem_cons_of_mem _ hy)) c hc

/-- `Plus` of two strictly sorted lists is strictly sorted: the merge keeps
the denomination order. -/
lemma Plus_sorted (a b : DecCoins)
    (ha : List.Pairwise (fun x y => x.denom < y.denom) a)
    (hb : List.Pairwise (fun x y => x.denom < y.denom) b) :
    List.Pairwise (fun x y => x.denom < y.denom) (a.Plus b) := by
  induction a, b using DecCoins.Plus.induct with
  | case1 b => simpa [DecCoins.Plus] using hb
  | case2 a h =>
    cases a with
    | nil => exact absurd rfl h
    | cons x xs => simpa [DecCoins.Plus] using ha
  | case3 coinA coins coinB coinsB h ih =>
    rw [List.pairwise_cons] at ha
    have hlt : coinA.denom < coinB.denom := strCompare_eq_lt.mp h
    simp only [DecCoins.Plus, h]
    rw [List.pairwise_cons]
    refine ⟨?_, ih ha.2 hb⟩
    intro c hc
    rcases denom_mem_Plus _ _ c hc with ⟨x, hx, hd⟩ | ⟨y, hy, hd⟩
    · exact hd ▸ ha.1 x hx
    · rcases List.mem_cons.mp hy with rfl | hy
      · exact hd ▸ hlt
      · rw [List.pairwise_cons] at hb
        exact hd ▸ hlt.trans (hb.1 y hy)
  | case4 coinA coins coinB coinsB h hz ih =>
    rw [List.pairwise_cons] at ha hb
    simp only [DecCoins.Plus, h, if_pos hz]
    exact ih ha.2 hb.2
  | case5 coinA coins coinB coinsB h hz ih =>
    rw [List.pairwise_cons] at ha hb
    have he : coinA.denom = coinB.denom := strCompare_eq_eq.mp h
    simp only [DecCoins.Plus, h, if_neg hz]
    rw [List.pairwise_cons]
    refine ⟨?_, ih ha.2 hb.2⟩
    intro c hc
    have hdp : (coinA.Plus coinB).denom = coinA.denom := by
      simp [DecCoin.Plus, he]
    rw [hdp]
    rcases denom_mem_Plus _ _ c hc with ⟨x, hx, hd⟩ | ⟨y, hy, hd⟩
    · exact hd ▸ ha.1 x hx
    · exact hd ▸ he ▸ hb.1 y hy
  | case6 coinA coins coinB coinsB h ih =>
    rw [List.pairwise_cons] at hb
    have hgt : coinB.denom < coinA.denom := strCompare_eq_gt.mp h
    simp only [DecCoins.Plus, h]
    rw [List.pairwise_cons]
    refine ⟨?_, ih ha hb.2⟩
    intro c hc
    rcases denom_mem_Plus _ _ c hc with ⟨x, hx, hd⟩ | ⟨y, hy, hd⟩
    · rcases List.mem_cons.mp hx with rfl | hx
      · exact hd ▸ hgt
      · rw [List.pairwise_cons] at ha
        exact hd ▸ hgt.trans (ha.1 x hx)
    · exact hd ▸ hb.1 y hy

/-- A list carrying no coin of denomination `d` carries amount 0 for it. -/
lemma amountOf_eq_zero (l : DecCoins) (d : String)
    (h : ∀ x ∈ l, x.denom ≠ d) : amountOf l d = 0 := by
  induction l with
  | nil => rfl
  | cons y ys ih =>
    rw [amountOf, if_neg (h y (List.mem_cons_self _ _)),
      ih (fun z hz => h z (List.mem_cons_of_mem _ hz)), add_zero]

/-- On a strictly sorted list, the amount carried by a member's denomination
is exactly that member's amount. -/
lemma amountOf_of_mem (l : DecCoins)
    (hl : List.Pairwise (fun x y => x.denom < y.denom) l) :
    ∀ c ∈ l, amountOf l c.denom = c.amount := by
  induction l with
  | nil => intro c hc; cases hc
  | cons x xs ih =>
    rw [List.pairwise_cons] at hl
    intro c hc
    rcases List.mem_cons.mp hc with rfl | hc
    · rw [amountOf, if_pos rfl,
        amountOf_eq_zero xs c.denom
          (fun z hz => (ne_of_lt (hl.1 z hz)).symm),
        add_zero]
    · have hx : x.denom ≠ c.denom := ne_of_lt (hl.1 c hc)
      rw [amountOf, if_neg hx, ih hl.2 c hc, zero_add]

/-- C3: on two canonical coin lists, `DecCoins.Plus` is the sorted merge by
denomination: amounts of equal denominations are summed, the result is again
strictly sorted, a denomination whose summed amount is zero is absent from
the result, and the result never contains a zero-amount entry. -/
theorem DecCoinsPlus_canonical_merge (a b : DecCoins)
    (ha : Canonical a) (hb : Canonical b) :
    (∀ d, amountOf (a.Plus b) d = amountOf a d + amountOf b d) ∧
    List.Pairwise (fun x y => x.denom < y.denom) (a.Plus b) ∧
    (∀ d, amountOf a d + amountOf b d = 0 → ∀ c ∈ a.Plus b, c.denom ≠ d) ∧
    (∀ c ∈ a.Plus b, c.amount ≠ 0) := by
  obtain ⟨has, haz⟩ := ha
  obtain ⟨hbs, hbz⟩ := hb
  refine ⟨amountOf_Plus a b, Plus_sorted a b has hbs, ?_, Plus_no_zero a b haz hbz⟩
  intro d hzero c hc hcd
  have h1 : amountOf (a.Plus b) c.denom = c.amount :=
    amountOf_of_mem _ (Plus_sorted a b has hbs) c hc
  have h2 : amountOf (a.Plus b) d = 0 := by rw [amountOf_Plus a b d, hzero]
  exact Plus_no_zero a b haz hbz c hc (by rw [← h1, hcd, h2])

/-- Witness for C3 at a = [("atom", 3)], b = [("atom", -3)]: the summed
amount of "atom" is zero and the merged list indeed carries zero for it. -/
theorem DecCoinsPlus_canonical_merge_witness :
    amountOf (DecCoins.Plus [⟨"atom", 3⟩] [⟨"atom", -3⟩]) "atom" =
      amountOf [(⟨"atom", 3⟩ : DecCoin)] "atom" +
        amountOf [(⟨"atom", -3⟩ : DecCoin)] "atom" :=
  (DecCoinsPlus_canonical_merge [⟨"atom", 3⟩] [⟨"atom", -3⟩]
    (by constructor <;> simp [Canonical]) (by constructor <;> simp [Canonical])).1 "atom"

/-- C10: `DecCoin.Plus` on two single coins returns the receiver unchanged,
silently discarding the argument, whenever the denominations differ; the
amounts are summed exactly when the denominations coincide. -/
theorem DecCoinPlus_mismatch_keeps_receiver (c1 c2 : DecCoin) :
    (c1.denom ≠ c2.denom → c1.Plus c2 = c1) ∧
    (c1.denom = c2.denom → c1.Plus c2 = ⟨c1.denom, c1.amount + c2.amount⟩) := by
  constructor
  · intro h; simp [DecCoin.Plus, h]
  · intro h; simp [DecCoin.Plus, h]

/-- C4 (against the intended `Mul`; the shipped source text does not
compile, see `DecCoins.Mul`): `Mul` keeps the length and the denominations
and multiplies every entry's amount by the scalar. -/
theorem DecCoinsMul_entrywise (coins : DecCoins) (m : ℚ) :
    (coins.Mul m).length = coins.length ∧
    ∀ i, i < coins.length →
      ((coins.Mul m).getD i ⟨"", 0⟩).denom = (coins.getD i ⟨"", 0⟩).denom ∧
      ((coins.Mul m).getD i ⟨"", 0⟩).amount = (coins.getD i ⟨"", 0⟩).amount * m := by
  refine ⟨by simp [DecCoins.Mul], ?_⟩
  intro i hi
  have hm : i < (coins.Mul m).length := by simpa [DecCoins.Mul] using hi
  rw [List.getD_eq_getElem _ _ hm, List.getD_eq_getElem _ _ hi]
  simp [DecCoins.Mul]

/-! ## `State` chain-id handling (`state/state.go`) -/

/-- The application `State` of `state/state.go`, restricted to the chain-id
field; the merkle store client handle and the check-tx account cache do not
interact with the chain-id behaviour. -/
structure State where
  chainID : String
  deriving DecidableEq, Repr

/-- `NewState` starts with an empty chain id. -/
def NewState : State := ⟨""⟩

/-- `State.SetChainID` stores the identifier. -/
def State.SetChainID (s : State) (chainID : String) : State :=
  { s with chainID := chainID }

/-- `State.GetChainID`: panics (`PanicSanity`, modelled as `none`) when the
stored chain id is the empty string, otherwise returns it. -/
def State.GetChainID (s : State) : Option String :=
  if s.chainID = "" then none else some s.chainID

/-- C9 counterexample: `SetChainID ""` is "any id" in the claim's sense, yet
`GetChainID` still panics (returns no value) afterwards. -/
theorem GetChainID_after_empty_set_panics :
    (NewState.SetChainID "").GetChainID = none := rfl

/-- C9 (amended): `GetChainID` panics exactly on an empty stored chain id —
in particular on a fresh state, where `SetChainID` was never called — and
after `SetChainID id` with a nonempty `id` it returns exactly `id`. -/
theorem GetChainID_set_get (s : State) (id : String) :
    (s.chainID = "" → s.GetChainID = none) ∧
    (id ≠ "" → (s.SetChainID id).GetChainID = some id) := by
  constructor
  · intro h; simp [State.GetChainID, h]
  · intro h; simp [State.GetChainID, State.SetChainID, h]

/-! ## Slashing keeper hooks (`slashing` package) -/

/-- Per-validator signed-block bookkeeping record; `jailedUntil` is a unix
timestamp (`time.Unix(0, 0)` becomes `0`). -/
structure ValidatorSigningInfo where
  startHeight : ℤ
  indexOffset : ℤ
  jailedUntil : ℤ
  signedBlocksCounter : ℤ
  deriving DecidableEq, Repr

/-- Per-validator slashing-period record; `endHeight = 0` marks an open
period. -/
structure ValidatorSlashingPeriod where
  validatorAddr : String
  startHeight : ℤ
  endHeight : ℤ
  slashedSoFar : ℚ
  deriving DecidableEq, Repr

/-- The slashing keeper's store: signing infos keyed by consensus address,
slashing periods keyed by address and start height (the stored record key
includes the period's start height). -/
structure SlashingState where
  signingInfo : String → Option ValidatorSigningInfo
  slashingPeriods : String → ℤ → Option ValidatorSlashingPeriod

/-- Store write for a signing info (`setValidatorSigningInfo`): plain
keyed update. -/
def SlashingState.setSigningInfo (s : SlashingState) (addr : String)
    (info : ValidatorSigningInfo) : SlashingState :=
  { s with signingInfo := fun a => if a = addr then some info else s.signingInfo a }

/-- Store write for a slashing period (`addOrUpdateValidatorSlashingPeriod`):
keyed update at (validator address, period start height). -/
def SlashingState.addOrUpdateSlashingPeriod (s : SlashingState)
    (sp : ValidatorSlashingPeriod) : SlashingState :=
  { s with
    slashingPeriods := fun a h =>
      if a = sp.validatorAddr ∧ h = sp.startHeight then some sp
      else s.slashingPeriods a h }

/-- `Keeper.onValidatorBonded`: create a signing info (start at the current
height, zero offsets and counter, jailed-until at epoch zero) only when none
exists, and always open a fresh slashing period at the current height. -/
def onValidatorBonded (blockHeight : ℤ) (address : String)
    (s : SlashingState) : SlashingState :=
  let s1 :=
    match s.signingInfo address with
    | some _ => s
    | none => s.setSigningInfo address ⟨blockHeight, 0, 0, 0⟩
  s1.addOrUpdateSlashingPeriod ⟨address, blockHeight, 0, 0⟩

/-- C8: `onValidatorBonded` creates the zeroed signing info exactly when none
exists (an existing record is untouched, other validators' records are
untouched), and in all cases stores the open slashing period
`(startHeight = current height, endHeight = 0, slashedSoFar = 0)` for the
address. -/
theorem onValidatorBonded_spec (blockHeight : ℤ) (address : String)
    (s : SlashingState) :
    (s.signingInfo address = none →
      (onValidatorBonded blockHeight address s).signingInfo address =
        some ⟨blockHeight, 0, 0, 0⟩) ∧
    (∀ info, s.signingInfo address = some info →
      (onValidatorBonded blockHeight address s).signingInfo address = some info) ∧
    (∀ a, a ≠ address →
      (onValidatorBonded blockHeight address s).signingInfo a = s.signingInfo a) ∧
    (onValidatorBonded blockHeight address s).slashingPeriods address blockHeight =
      some ⟨address, blockHeight, 0, 0⟩ := by
  refine ⟨?_, ?_, ?_, ?_⟩
  · intro h
    simp [onValidatorBonded, h, SlashingState.setSigningInfo,
      SlashingState.addOrUpdateSlashingPeriod]
  · intro info h
    simp [onValidatorBonded, h, SlashingState.addOrUpdateSlashingPeriod]
  · intro a ha
    cases hsi : s.signingInfo address with
    | none =>
      simp [onValidatorBonded, hsi, SlashingState.setSigningInfo, ha,
        SlashingState.addOrUpdateSlashingPeriod]
    | some info =>
      simp [onValidatorBonded, hsi, SlashingState.addOrUpdateSlashingPeriod]
  · cases hsi : s.signingInfo address with
    | none =>
      simp [onValidatorBonded, hsi, SlashingState.setSigningInfo,
        SlashingState.addOrUpdateSlashingPeriod]
    | some info =>
      simp [onValidatorBonded, hsi, SlashingState.addOrUpdateSlashingPeriod]

/-! ## Pool / Candidate ledger (`stake` package, `Pool`/`Candidate` model)

Modelled from the spec: the `pool.go` operations (`addTokensBonded`,
`removeSharesBonded`, `bondedToUnbondedPool`, `candidateAddTokens`,
`candidateRemoveShares`, the exchange rates) are exercised by the staking
tests in the corpus but their implementation file is not part of it; the
definitions below follow the spec's pool/exchange-rate contract (§4.2,
§8) and the shapes the tests assert. -/

/-- Bonding status of a candidate. -/
inductive CandidateStatus where
  | Bonded
  | Unbonded
  deriving DecidableEq, Repr

/-- A staking candidate: `assets` are the global pool shares it holds,
`liabilities` the delegator shares it owes. -/
structure Candidate where
  status : CandidateStatus
  assets : ℚ
  liabilities : ℚ
  deriving DecidableEq, Repr

/-- The global staking pool: share tallies and token balances of the bonded
and unbonded side (inflation bookkeeping is not touched by any pool
operation treated here). -/
structure Pool where
  bondedShares : ℚ
  unbondedShares : ℚ
  bondedPool : ℤ
  unbondedPool : ℤ
  deriving DecidableEq, Repr

/-- Modelled from the spec: tokens per bonded share, defined as 1 when no
bonded shares exist. -/
def Pool.bondedShareExRate (p : Pool) : ℚ :=
  if p.bondedShares = 0 then 1 else (p.bondedPool : ℚ) / p.bondedShares

/-- Modelled from the spec: tokens per unbonded share, defined as 1 when no
unbonded shares exist. -/
def Pool.unbondedShareExRate (p : Pool) : ℚ :=
  if p.unbondedShares = 0 then 1 else (p.unbondedPool : ℚ) / p.unbondedShares

/-- Modelled from the spec: delegator shares exchange rate of a candidate,
`assets / liabilities`, defined as 1 when liabilities are zero. -/
def Candidate.delegatorShareExRate (c : Candidate) : ℚ :=
  if c.liabilities = 0 then 1 else c.assets / c.liabilities

/-- Modelled from the spec: deposit `amount` tokens into the bonded pool,
issuing `amount / r` shares at the pre-deposit exchange rate `r`. -/
def Pool.addTokensBonded (p : Pool) (amount : ℤ) : Pool × ℚ :=
  let issuedShares := (amount : ℚ) / p.bondedShareExRate
  ({ p with
      bondedPool := p.bondedPool + amount,
      bondedShares := p.bondedShares + issuedShares }, issuedShares)

/-- Modelled from the spec: deposit `amount` tokens into the unbonded pool,
issuing `amount / r` shares at the pre-deposit exchange rate `r`. -/
def Pool.addTokensUnbonded (p : Pool) (amount : ℤ) : Pool × ℚ :=
  let issuedShares := (amount : ℚ) / p.unbondedShareExRate
  ({ p with
      unbondedPool := p.unbondedPool + amount,
      unbondedShares := p.unbondedShares + issuedShares }, issuedShares)

/-- Modelled from the spec: withdraw `shares` from the bonded pool,
returning `shares * r` tokens floor-rounded toward the pool. -/
def Pool.removeSharesBonded (p : Pool) (shares : ℚ) : Pool × ℤ :=
  let removedTokens := ⌊p.bondedShareExRate * shares⌋
  ({ p with
      bondedShares := p.bondedShares - shares,
      bondedPool := p.bondedPool - removedTokens }, removedTokens)

/-- Modelled from the spec: withdraw `shares` from the unbonded pool,
returning `shares * r` tokens floor-rounded toward the pool. -/
def Pool.removeSharesUnbonded (p : Pool) (shares : ℚ) : Pool × ℤ :=
  let removedTokens := ⌊p.unbondedShareExRate * shares⌋
  ({ p with
      unbondedShares := p.unbondedShares - shares,
      unbondedPool := p.unbondedPool - removedTokens }, removedTokens)

/-- Modelled from the spec: move a candidate from the bonded to the unbonded
pool — its token value leaves the bonded tally and the identical amount
enters the unbonded tally; its share tallies follow it, its own
assets/liabilities are untouched and only the status flips. -/
def Pool.bondedToUnbondedPool (p : Pool) (candidate : Candidate) : Pool × Candidate :=
  let tokens := ⌊p.bondedShareExRate * candidate.assets⌋
  ({ p with
      bondedPool := p.bondedPool - tokens,
      bondedShares := p.bondedShares - candidate.assets,
      unbondedPool := p.unbondedPool + tokens,
      unbondedShares := p.unbondedShares + candidate.assets },
    { candidate with status := .Unbonded })

/-- Modelled from the spec: move a candidate from the unbonded to the bonded
pool, symmetric to `bondedToUnbondedPool`. -/
def Pool.unbondedToBondedPool (p : Pool) (candidate : Candidate) : Pool × Candidate :=
  let tokens := ⌊p.unbondedShareExRate * candidate.assets⌋
  ({ p with
      unbondedPool := p.unbondedPool - tokens,
      unbondedShares := p.unbondedShares - candidate.assets,
      bondedPool := p.bondedPool + tokens,
      bondedShares := p.bondedShares + candidate.assets },
    { candidate with status := .Bonded })

/-- Modelled from the spec: delegate `amount` tokens to a candidate — the
tokens enter the pool matching the candidate's status, the received global
shares are added to the candidate's assets, and delegator shares are issued
at the candidate's pre-deposit exchange rate. -/
def Pool.candidateAddTokens (p : Pool) (candidate : Candidate) (amount : ℤ) :
    Pool × Candidate × ℚ :=
  let exRate := candidate.delegatorShareExRate
  let res :=
    if candidate.status = .Bonded then p.addTokensBonded amount
    else p.addTokensUnbonded amount
  let issuedDelegatorShares := exRate * (amount : ℚ)
  (res.1,
    { candidate with
        assets := candidate.assets + res.2,
        liabilities := candidate.liabilities + issuedDelegatorShares },
    issuedDelegatorShares)

/-- Modelled from the spec: withdraw `shares` delegator shares from a
candidate — the corresponding global shares leave the pool matching the
candidate's status and the token value is paid out. -/
def Pool.candidateRemoveShares (p : Pool) (candidate : Candidate) (shares : ℚ) :
    Pool × Candidate × ℤ :=
  let globalPoolSharesToRemove := candidate.delegatorShareExRate * shares
  let res :=
    if candidate.status = .Bonded then p.removeSharesBonded globalPoolSharesToRemove
    else p.removeSharesUnbonded globalPoolSharesToRemove
  (res.1,
    { candidate with
        assets := candidate.assets - globalPoolSharesToRemove,
        liabilities := candidate.liabilities - shares },
    res.2)

/-- The whole staking state the random-operation test walks over: the pool,
the candidate list, and the externally held tokens. -/
structure StakeState where
  pool : Pool
  candidates : List Candidate
  external : ℤ
  deriving DecidableEq, Repr

/-- The three pool operations of the staking test's `randomOperation`:
move a candidate between the pools, delegate tokens to a candidate (token
and share counts are drawn as nonnegative machine integers), and withdraw
delegator shares from a candidate (clamped to half the liabilities when
requesting more than the candidate owes). -/
inductive Op where
  | bondUnbond (i : ℕ)
  | addTokens (i : ℕ) (amount : ℕ)
  | removeShares (i : ℕ) (amount : ℕ)
  deriving DecidableEq, Repr

/-- Apply one operation; an out-of-range candidate index leaves the state
unchanged. -/
def applyOp (s : StakeState) (op : Op) : StakeState :=
  match op with
  | .bondUnbond i =>
    match s.candidates[i]? with
    | none => s
    | some cand =>
      if cand.status = .Bonded then
        let r := s.pool.bondedToUnbondedPool cand
        { s with pool := r.1, candidates := s.candidates.set i r.2 }
      else
        let r := s.pool.unbondedToBondedPool cand
        { s with pool := r.1, candidates := s.candidates.set i r.2 }
  | .addTokens i amount =>
    match s.candidates[i]? with
    | none => s
    | some cand =>
      let r := s.pool.candidateAddTokens cand amount
      { pool := r.1, candidates := s.candidates.set i r.2.1,
        external := s.external - amount }
  | .removeShares i amount =>
    match s.candidates[i]? with
    | none => s
    | some cand =>
      let shares :=
        if cand.liabilities < (amount : ℚ) then cand.liabilities / 2
        else (amount : ℚ)
      let r := s.pool.candidateRemoveShares cand shares
      { pool := r.1, candidates := s.candidates.set i r.2.1,
        external := s.external + r.2.2 }

/-- Apply a sequence of operations in order. -/
def applySeq (s : StakeState) (ops : List Op) : StakeState :=
  ops.foldl applyOp s

/-- The conserved quantity: bonded pool tokens + unbonded pool tokens +
externally held tokens. -/
def totalTokens (s : StakeState) : ℤ :=
  s.pool.bondedPool + s.pool.unbondedPool + s.external

/-- C1: every pool operation conserves
`bondedPool + unbondedPool + external`, from every state — in particular
from every reachable one, so the sum is invariant along every operation
sequence. -/
theorem poolOps_conserve_totalTokens :
    (∀ (s : StakeState) (op : Op), totalTokens (applyOp s op) = totalTokens s) ∧
    (∀ (s : StakeState) (ops : List Op), totalTokens (applySeq s ops) = totalTokens s) := by
  have hstep : ∀ (s : StakeState) (op : Op), totalTokens (applyOp s op) = totalTokens s := by
    intro s op
    match op with
    | .bondUnbond i =>
      cases hc : s.candidates[i]? with
      | none => simp [applyOp, hc]
      | some cand =>
        by_cases hst : cand.status = .Bonded
        · simp only [applyOp, hc, if_pos hst, totalTokens, Pool.bondedToUnbondedPool]
          ring
        · simp only [applyOp, hc, if_neg hst, totalTokens, Pool.unbondedToBondedPool]
          ring
    | .addTokens i amount =>
      cases hc : s.candidates[i]? with
      | none => simp [applyOp, hc]
      | some cand =>
        by_cases hst : cand.status = .Bonded
        · simp only [applyOp, hc, totalTokens, Pool.candidateAddTokens, if_pos hst,
            Pool.addTokensBonded]
          ring
        · simp only [applyOp, hc, totalTokens, Pool.candidateAddTokens, if_neg hst,
            Pool.addTokensUnbonded]
          ring
    | .removeShares i amount =>
      cases hc : s.candidates[i]? with
      | none => simp [applyOp, hc]
      | some cand =>
        by_cases hst : cand.status = .Bonded
        · simp only [applyOp, hc, totalTokens, Pool.candidateRemoveShares, if_pos hst,
            Pool.removeSharesBonded]
          ring
        · simp only [applyOp, hc, totalTokens, Pool.candidateRemoveShares, if_neg hst,
            Pool.removeSharesUnbonded]
          ring
  refine ⟨hstep, ?_⟩
  intro s ops
  induction ops generalizing s with
  | nil => rfl
  | cons op rest ih =>
    rw [applySeq, List.foldl_cons, ← applySeq, ih, hstep]

/-- C5: moving a candidate between the pools moves exactly its token value
(at the source pool's exchange rate) from one token tally to the other —
equal and opposite changes — carries its share tally across, and leaves the
candidate's own assets and liabilities unchanged, flipping only the status. -/
theorem poolTransition_frame (p : Pool) (c : Candidate) :
    ((p.bondedToUnbondedPool c).1.bondedPool =
        p.bondedPool - ⌊p.bondedShareExRate * c.assets⌋ ∧
      (p.bondedToUnbondedPool c).1.unbondedPool =
        p.unbondedPool + ⌊p.bondedShareExRate * c.assets⌋ ∧
      (p.bondedToUnbondedPool c).1.bondedShares = p.bondedShares - c.assets ∧
      (p.bondedToUnbondedPool c).1.unbondedShares = p.unbondedShares + c.assets ∧
      (p.bondedToUnbondedPool c).2.assets = c.assets ∧
      (p.bondedToUnbondedPool c).2.liabilities = c.liabilities ∧
      (p.bondedToUnbondedPool c).2.status = .Unbonded) ∧
    ((p.unbondedToBondedPool c).1.unbondedPool =
        p.unbondedPool - ⌊p.unbondedShareExRate * c.assets⌋ ∧
      (p.unbondedToBondedPool c).1.bondedPool =
        p.bondedPool + ⌊p.unbondedShareExRate * c.assets⌋ ∧
      (p.unbondedToBondedPool c).1.unbondedShares = p.unbondedShares - c.assets ∧
      (p.unbondedToBondedPool c).1.bondedShares = p.bondedShares + c.assets ∧
      (p.unbondedToBondedPool c).2.assets = c.assets ∧
      (p.unbondedToBondedPool c).2.liabilities = c.liabilities ∧
      (p.unbondedToBondedPool c).2.status = .Bonded) := by
  constructor
  · exact ⟨rfl, rfl, rfl, rfl, rfl, rfl, rfl⟩
  · exact ⟨rfl, rfl, rfl, rfl, rfl, rfl, rfl⟩

/-- Global-share contribution of a candidate to the bonded tally. -/
def bondedContribution (c : Candidate) : ℚ :=
  if c.status = .Bonded then c.assets else 0

/-- Global-share contribution of a candidate to the unbonded tally. -/
def unbondedContribution (c : Candidate) : ℚ :=
  if c.status = .Bonded then 0 else c.assets

/-- Sum of the bonded candidates' assets. -/
def bondedAssetsSum (l : List Candidate) : ℚ :=
  (l.map bondedContribution).sum

/-- Sum of the unbonded candidates' assets. -/
def unbondedAssetsSum (l : List Candidate) : ℚ :=
  (l.map unbondedContribution).sum

/-- A valid staking state, as `randomSetup` produces it: candidates carry
nonnegative assets and liabilities, the pool's share tallies are exactly the
candidates' summed assets per status, and both token pools are nonnegative. -/
def ValidState (s : StakeState) : Prop :=
  (∀ c ∈ s.candidates, 0 ≤ c.assets ∧ 0 ≤ c.liabilities) ∧
  s.pool.bondedShares = bondedAssetsSum s.candidates ∧
  s.pool.unbondedShares = unbondedAssetsSum s.candidates ∧
  0 ≤ s.pool.bondedPool ∧
  0 ≤ s.pool.unbondedPool

instance : DecidablePred ValidState := fun s => by
  unfold ValidState; infer_instance

lemma sum_map_set (f : Candidate → ℚ) (l : List Candidate) (i : ℕ) (x : Candidate)
    (h : i < l.length) :
    ((l.set i x).map f).sum = (l.map f).sum - f l[i] + f x := by
  induction l generalizing i with
  | nil => cases h
  | cons y ys ih =>
    cases i with
    | zero => simp; ring
    | succ n =>
      have hn : n < ys.length := by simpa using h
      simp only [List.set, List.map_cons, List.sum_cons, ih n hn,
        List.getElem_cons_succ]
      ring

lemma rate_mul_bounds {num S g : ℚ} (hnum : 0 ≤ num) (hS : 0 ≤ S)
    (hg0 : 0 ≤ g) (hgS : g ≤ S) :
    0 ≤ (if S = 0 then 1 else num / S) * g ∧
      (if S = 0 then 1 else num / S) * g ≤ num := by
  by_cases h : S = 0
  · have hg : g = 0 := le_antisymm (h ▸ hgS) hg0
    simp [h, hg, hnum]
  · have hSpos : 0 < S := lt_of_le_of_ne hS (Ne.symm h)
    rw [if_neg h, div_mul_eq_mul_div]
    constructor
    · exact div_nonneg (mul_nonneg hnum hg0) hS
    · rw [div_le_iff₀ hSpos]
      exact mul_le_mul_of_nonneg_left hgS hnum

lemma rate_nonneg {num S : ℚ} (hnum : 0 ≤ num) (hS : 0 ≤ S) :
    0 ≤ if S = 0 then 1 else num / S := by
  by_cases h : S = 0
  · simp [h]
  · rw [if_neg h]
    exact div_nonneg hnum hS

lemma contribution_nonneg {l : List Candidate}
    (h : ∀ c ∈ l, 0 ≤ c.assets ∧ 0 ≤ c.liabilities) :
    (∀ c ∈ l, 0 ≤ bondedContribution c) ∧ ∀ c ∈ l, 0 ≤ unbondedContribution c := by
  constructor
  · intro c hc
    unfold bondedContribution
    split
    · exact (h c hc).1
    · exact le_refl 0
  · intro c hc
    unfold unbondedContribution
    split
    · exact le_refl 0
    · exact (h c hc).1

lemma bondedAssetsSum_nonneg {l : List Candidate}
    (h : ∀ c ∈ l, 0 ≤ c.assets ∧ 0 ≤ c.liabilities) : 0 ≤ bondedAssetsSum l :=
  List.sum_nonneg (by
    intro x hx
    obtain ⟨c, hc, rfl⟩ := List.mem_map.mp hx
    exact (contribution_nonneg h).1 c hc)

lemma unbondedAssetsSum_nonneg {l : List Candidate}
    (h : ∀ c ∈ l, 0 ≤ c.assets ∧ 0 ≤ c.liabilities) : 0 ≤ unbondedAssetsSum l :=
  List.sum_nonneg (by
    intro x hx
    obtain ⟨c, hc, rfl⟩ := List.mem_map.mp hx
    exact (contribution_nonneg h).2 c hc)

lemma bondedContribution_le_sum {l : List Candidate} {c : Candidate} (hc : c ∈ l)
    (h : ∀ c' ∈ l, 0 ≤ c'.assets ∧ 0 ≤ c'.liabilities) :
    bondedContribution c ≤ bondedAssetsSum l :=
  List.single_le_sum
    (by
      intro x hx
      obtain ⟨c', hc', rfl⟩ := List.mem_map.mp hx
      exact (contribution_nonneg h).1 c' hc')
    _ (List.mem_map_of_mem _ hc)

lemma unbondedContribution_le_sum {l : List Candidate} {c : Candidate} (hc : c ∈ l)
    (h : ∀ c' ∈ l, 0 ≤ c'.assets ∧ 0 ≤ c'.liabilities) :
    unbondedContribution c ≤ unbondedAssetsSum l :=
  List.single_le_sum
    (by
      intro x hx
      obtain ⟨c', hc', rfl⟩ := List.mem_map.mp hx
      exact (contribution_nonneg h).2 c' hc')
    _ (List.mem_map_of_mem _ hc)

lemma remove_tokens_bounds {P : ℤ} {S g : ℚ} (hP : 0 ≤ P) (hS : 0 ≤ S)
    (hg0 : 0 ≤ g) (hgS : g ≤ S) :
    0 ≤ ⌊(if S = 0 then 1 else (P : ℚ) / S) * g⌋ ∧
      ⌊(if S = 0 then 1 else (P : ℚ) / S) * g⌋ ≤ P := by
  have hnum : (0 : ℚ) ≤ (P : ℚ) := by exact_mod_cast hP
  obtain ⟨h1, h2⟩ := rate_mul_bounds hnum hS hg0 hgS
  refine ⟨Int.floor_nonneg.mpr h1, ?_⟩
  have := Int.floor_le_floor h2
  simpa using this

/-- Every pool operation preserves validity of the staking state. -/
lemma validState_applyOp (s : StakeState) (op : Op) (h : ValidState s) :
    ValidState (applyOp s op) := by
  obtain ⟨hnn, hbS, huS, hbP, huP⟩ := h
  have hbS0 : 0 ≤ s.pool.bondedShares := hbS ▸ bondedAssetsSum_nonneg hnn
  have huS0 : 0 ≤ s.pool.unbondedShares := huS ▸ unbondedAssetsSum_nonneg hnn
  match op with
  | .bondUnbond i =>
    cases hc : s.candidates[i]? with
    | none =>
      simp only [applyOp, hc]
      exact ⟨hnn, hbS, huS, hbP, huP⟩
    | some cand =>
      obtain ⟨hlen, hgot⟩ := List.getElem?_eq_some.mp hc
      have hmem : cand ∈ s.candidates := hgot ▸ List.getElem_mem hlen
      have hA : 0 ≤ cand.assets := (hnn cand hmem).1
      by_cases hst : cand.status = .Bonded
      · have hAle : cand.assets ≤ s.pool.bondedShares := by
          have := bondedContribution_le_sum hmem hnn
          rw [hbS]
          simpa [bondedContribution, hst] using this
        obtain ⟨htok0, htokle⟩ := remove_tokens_bounds hbP hbS0 hA hAle
        simp only [applyOp, hc, if_pos hst, Pool.bondedToUnbondedPool,
          Pool.bondedShareExRate] at htok0 htokle ⊢
        refine ⟨?_, ?_, ?_, ?_, ?_⟩
        · intro c hcm
          rcases List.mem_or_eq_of_mem_set hcm with hcm | rfl
          · exact hnn c hcm
          · exact hnn cand hmem
        · show s.pool.bondedShares - cand.assets = bondedAssetsSum _
          unfold bondedAssetsSum
          rw [sum_map_set _ _ _ _ hlen, hgot, hbS]
          unfold bondedAssetsSum
          simp [bondedContribution, hst]
        · show s.pool.unbondedShares + cand.assets = unbondedAssetsSum _
          unfold unbondedAssetsSum
          rw [sum_map_set _ _ _ _ hlen, hgot, huS]
          unfold unbondedAssetsSum
          simp [unbondedContribution, hst]
        · show 0 ≤ s.pool.bondedPool - _
          omega
        · show 0 ≤ s.pool.unbondedPool + _
          omega
      · have hAle : cand.assets ≤ s.pool.unbondedShares := by
          have := unbondedContribution_le_sum hmem hnn
          rw [huS]
          simpa [unbondedContribution, hst] using this
        obtain ⟨htok0, htokle⟩ := remove_tokens_bounds huP huS0 hA hAle
        simp only [applyOp, hc, if_neg hst, Pool.unbondedToBondedPool,
          Pool.unbondedShareExRate] at htok0 htokle ⊢
        refine ⟨?_, ?_, ?_, ?_, ?_⟩
        · intro c hcm
          rcases List.mem_or_eq_of_mem_set hcm with hcm | rfl
          · exact hnn c hcm
          · exact hnn cand hmem
        · show s.pool.bondedShares + cand.assets = bondedAssetsSum _
          unfold bondedAssetsSum
          rw [sum_map_set _ _ _ _ hlen, hgot, hbS]
          unfold bondedAssetsSum
          simp [bondedContribution, hst]
        · show s.pool.unbondedShares - cand.assets = unbondedAssetsSum _
          unfold unbondedAssetsSum
          rw [sum_map_set _ _ _ _ hlen, hgot, huS]
          unfold unbondedAssetsSum
          simp [unbondedContribution, hst]
        · show 0 ≤ s.pool.bondedPool + _
          omega
        · show 0 ≤ s.pool.unbondedPool - _
          omega
  | .addTokens i amount =>
    cases hc : s.candidates[i]? with
    | none =>
      simp only [applyOp, hc]
      exact ⟨hnn, hbS, huS, hbP, huP⟩
    | some cand =>
      obtain ⟨hlen, hgot⟩ := List.getElem?_eq_some.mp hc
      have hmem : cand ∈ s.candidates := hgot ▸ List.getElem_mem hlen
      have hA : 0 ≤ cand.assets := (hnn cand hmem).1
      have hL : 0 ≤ cand.liabilities := (hnn cand hmem).2
      have hdel : 0 ≤ cand.delegatorShareExRate := by
        unfold Candidate.delegatorShareExRate
        exact rate_nonneg hA hL
      have hliab : 0 ≤ cand.liabilities + cand.delegatorShareExRate * (amount : ℚ) := by
        have : 0 ≤ cand.delegatorShareExRate * (amount : ℚ) :=
          mul_nonneg hdel (by positivity)
        linarith
      by_cases hst : cand.status = .Bonded
      · have hrate : 0 ≤ s.pool.bondedShareExRate := by
          unfold Pool.bondedShareExRate
          exact rate_nonneg (by exact_mod_cast hbP) hbS0
        have hiss : 0 ≤ ((amount : ℤ) : ℚ) / s.pool.bondedShareExRate :=
          div_nonneg (by positivity) hrate
        simp only [applyOp, hc, Pool.candidateAddTokens, if_pos hst,
          Pool.addTokensBonded]
        refine ⟨?_, ?_, ?_, ?_, ?_⟩
        · intro c hcm
          rcases List.mem_or_eq_of_mem_set hcm with hcm | rfl
          · exact hnn c hcm
          · exact ⟨by simpa using add_nonneg hA hiss, hliab⟩
        · show s.pool.bondedShares + _ = bondedAssetsSum _
          unfold bondedAssetsSum
          rw [sum_map_set _ _ _ _ hlen, hgot, hbS]
          unfold bondedAssetsSum
          simp [bondedContribution, hst]
          try ring
        · show s.pool.unbondedShares = unbondedAssetsSum _
          unfold unbondedAssetsSum
          rw [sum_map_set _ _ _ _ hlen, hgot, huS]
          unfold unbondedAssetsSum
          simp [unbondedContribution, hst]
        · show 0 ≤ s.pool.bondedPool + (amount : ℤ)
          omega
        · exact huP
      · have hrate : 0 ≤ s.pool.unbondedShareExRate := by
          unfold Pool.unbondedShareExRate
          exact rate_nonneg (by exact_mod_cast huP) huS0
        have hiss : 0 ≤ ((amount : ℤ) : ℚ) / s.pool.unbondedShareExRate :=
          div_nonneg (by positivity) hrate
        simp only [applyOp, hc, Pool.candidateAddTokens, if_neg hst,
          Pool.addTokensUnbonded]
        refine ⟨?_, ?_, ?_, ?_, ?_⟩
        · intro c hcm
          rcases List.mem_or_eq_of_mem_set hcm with hcm | rfl
          · exact hnn c hcm
          · exact ⟨by simpa using add_nonneg hA hiss, hliab⟩
        · show s.pool.bondedShares = bondedAssetsSum _
          unfold bondedAssetsSum
          rw [sum_map_set _ _ _ _ hlen, hgot, hbS]
          unfold bondedAssetsSum
          simp [bondedContribution, hst]
        · show s.pool.unbondedShares + _ = unbondedAssetsSum _
          unfold unbondedAssetsSum
          rw [sum_map_set _ _ _ _ hlen, hgot, huS]
          unfold unbondedAssetsSum
          simp [unbondedContribution, hst]
          try ring
        · exact hbP
        · show 0 ≤ s.pool.unbondedPool + (amount : ℤ)
          omega
  | .removeShares i amount =>
    cases hc : s.candidates[i]? with
    | none =>
      simp only [applyOp, hc]
      exact ⟨hnn, hbS, huS, hbP, huP⟩
    | some cand =>
      obtain ⟨hlen, hgot⟩ := List.getElem?_eq_some.mp hc
      have hmem : cand ∈ s.candidates := hgot ▸ List.getElem_mem hlen
      have hA : 0 ≤ cand.assets := (hnn cand hmem).1
      have hL : 0 ≤ cand.liabilities := (hnn cand hmem).2
      set sh : ℚ :=
        if cand.liabilities < (amount : ℚ) then cand.liabilities / 2
        else (amount : ℚ) with hsh_def
      have hsh0 : 0 ≤ sh := by
        rw [hsh_def]
        split
        · positivity
        · positivity
      have hshle : sh ≤ cand.liabilities := by
        rw [hsh_def]
        split
        · exact half_le_self hL
        · rename_i hcmp
          exact le_of_not_lt hcmp
      have hg := rate_mul_bounds hA hL hsh0 hshle
      have hg0 : 0 ≤ cand.delegatorShareExRate * sh := by
        unfold Candidate.delegatorShareExRate
        exact hg.1
      have hgA : cand.delegatorShareExRate * sh ≤ cand.assets := by
        unfold Candidate.delegatorShareExRate
        exact hg.2
      by_cases hst : cand.status = .Bonded
      · have hAle : cand.assets ≤ s.pool.bondedShares := by
          have := bondedContribution_le_sum hmem hnn
          rw [hbS]
          simpa [bondedContribution, hst] using this
        obtain ⟨htok0, htokle⟩ :=
          remove_tokens_bounds hbP hbS0 hg0 (hgA.trans hAle)
        simp only [applyOp, hc, Pool.candidateRemoveShares, if_pos hst,
          Pool.removeSharesBonded, Pool.bondedShareExRate] at htok0 htokle ⊢
        rw [← hsh_def]
        refine ⟨?_, ?_, ?_, ?_, ?_⟩
        · intro c hcm
          rcases List.mem_or_eq_of_mem_set hcm with hcm | rfl
          · exact hnn c hcm
          · constructor
            · show 0 ≤ cand.assets - cand.delegatorShareExRate * sh
              linarith
            · show 0 ≤ cand.liabilities - sh
              linarith
        · show s.pool.bondedShares - _ = bondedAssetsSum _
          unfold bondedAssetsSum
          rw [sum_map_set _ _ _ _ hlen, hgot, hbS]
          unfold bondedAssetsSum
          simp [bondedContribution, hst]
          try ring
        · show s.pool.unbondedShares = unbondedAssetsSum _
          unfold unbondedAssetsSum
          rw [sum_map_set _ _ _ _ hlen, hgot, huS]
          unfold unbondedAssetsSum
          simp [unbondedContribution, hst]
        · show 0 ≤ s.pool.bondedPool - _
          omega
        · exact huP
      · have hAle : cand.assets ≤ s.pool.unbondedShares := by
          have := unbondedContribution_le_sum hmem hnn
          rw [huS]
          simpa [unbondedContribution, hst] using this
        obtain ⟨htok0, htokle⟩ :=
          remove_tokens_bounds huP huS0 hg0 (hgA.trans hAle)
        simp only [applyOp, hc, Pool.candidateRemoveShares, if_neg hst,
          Pool.removeSharesUnbonded, Pool.unbondedShareExRate] at htok0 htokle ⊢
        rw [← hsh_def]
        refine ⟨?_, ?_, ?_, ?_, ?_⟩
        · intro c hcm
          rcases List.mem_or_eq_of_mem_set hcm with hcm | rfl
          · exact hnn c hcm
          · constructor
            · show 0 ≤ cand.assets - cand.delegatorShareExRate * sh
              linarith
            · show 0 ≤ cand.liabilities - sh
              linarith
        · show s.pool.bondedShares = bondedAssetsSum _
          unfold bondedAssetsSum
          rw [sum_map_set _ _ _ _ hlen, hgot, hbS]
          unfold bondedAssetsSum
          simp [bondedContribution, hst]
        · show s.pool.unbondedShares - _ = unbondedAssetsSum _
          unfold unbondedAssetsSum
          rw [sum_map_set _ _ _ _ hlen, hgot, huS]
          unfold unbondedAssetsSum
          simp [unbondedContribution, hst]
          try ring
        · exact hbP
        · show 0 ≤ s.pool.unbondedPool - _
          omega

/-- C2: from every valid initial state, every sequence of pool/candidate
operations leads to a state with nonnegative bonded and unbonded share
tallies, nonnegative bonded and unbonded exchange rates, and nonnegative
assets and liabilities for every candidate. -/
theorem reachable_state_nonneg (s : StakeState) (ops : List Op)
    (h : ValidState s) :
    0 ≤ (applySeq s ops).pool.bondedShares ∧
    0 ≤ (applySeq s ops).pool.unbondedShares ∧
    0 ≤ (applySeq s ops).pool.bondedShareExRate ∧
    0 ≤ (applySeq s ops).pool.unbondedShareExRate ∧
    ∀ c ∈ (applySeq s ops).candidates, 0 ≤ c.assets ∧ 0 ≤ c.liabilities := by
  have hv : ValidState (applySeq s ops) := by
    induction ops generalizing s with
    | nil => exact h
    | cons op rest ih =>
      rw [applySeq, List.foldl_cons, ← applySeq]
      exact ih _ (validState_applyOp s op h)
  obtain ⟨hnn, hbS, huS, hbP, huP⟩ := hv
  have h1 : 0 ≤ (applySeq s ops).pool.bondedShares :=
    hbS ▸ bondedAssetsSum_nonneg hnn
  have h2 : 0 ≤ (applySeq s ops).pool.unbondedShares :=
    huS ▸ unbondedAssetsSum_nonneg hnn
  refine ⟨h1, h2, ?_, ?_, hnn⟩
  · unfold Pool.bondedShareExRate
    exact rate_nonneg (by exact_mod_cast hbP) h1
  · unfold Pool.unbondedShareExRate
    exact rate_nonneg (by exact_mod_cast huP) h2

/-- Witness for C2: a one-candidate valid state stays nonnegative across a
delegate, a pool move and a share withdrawal. -/
theorem reachable_state_nonneg_witness :
    0 ≤ (applySeq ⟨⟨9, 0, 9, 0⟩, [⟨.Bonded, 9, 9⟩], 5⟩
        [.addTokens 0 10, .bondUnbond 0, .removeShares 0 3]).pool.bondedShares ∧
    0 ≤ (applySeq ⟨⟨9, 0, 9, 0⟩, [⟨.Bonded, 9, 9⟩], 5⟩
        [.addTokens 0 10, .bondUnbond 0, .removeShares 0 3]).pool.unbondedShares := by
  have h := reachable_state_nonneg ⟨⟨9, 0, 9, 0⟩, [⟨.Bonded, 9, 9⟩], 5⟩
    [.addTokens 0 10, .bondUnbond 0, .removeShares 0 3]
    (by
      refine ⟨?_, ?_, ?_, by norm_num, by norm_num⟩
      · intro c hc
        simp only [List.mem_singleton] at hc
        subst hc
        norm_num
      · simp [bondedAssetsSum, bondedContribution]
      · simp [unbondedAssetsSum, unbondedContribution])
  exact ⟨h.1, h.2.1⟩

/-! ## Delegation / unbonding keeper (`staking` keeper, decimal model)

Modelled from the spec: `Keeper.Unbond`, `Keeper.Undelegate`,
`Keeper.CompleteUnbonding` and `Validator.AddTokensFromDel` are exercised by
the keeper tests in the corpus but their implementations are not part of it;
the definitions below follow the spec's delegation state machine (§4.2,
§4.3) for one (delegator, validator) pair. -/

/-- One pending unbonding-delegation entry. Times are unix timestamps. -/
structure UBDEntry where
  creationHeight : ℤ
  completionTime : ℤ
  initialBalance : ℤ
  balance : ℤ
  deriving DecidableEq, Repr

/-- Staking parameters relevant to undelegation. -/
structure StakingParams where
  unbondingPeriod : ℤ
  maxEntries : ℕ
  deriving DecidableEq, Repr

/-- Keeper state restricted to one validator and one
(delegator, validator) pair: the validator's tokens and issued delegator
shares, the pair's delegation shares, the two module pools, and the pair's
pending unbonding entries. -/
structure KeeperState where
  valTokens : ℤ
  valShares : ℚ
  delShares : ℚ
  bondedPool : ℤ
  notBondedPool : ℤ
  ubdEntries : List UBDEntry
  deriving DecidableEq, Repr

/-- Error kinds of the undelegation path. -/
inductive StakingError where
  | maxEntriesExceeded
  deriving DecidableEq, Repr

/-- Modelled from the spec: delegating `amount` tokens issues validator
shares at the pre-deposit exchange rate (`amount` itself for a fresh
validator), credits the delegation, and the tokens enter the bonded pool. -/
def delegate (s : KeeperState) (amount : ℤ) : KeeperState :=
  let issued :=
    if s.valShares = 0 then (amount : ℚ)
    else s.valShares * (amount : ℚ) / (s.valTokens : ℚ)
  { s with
      valTokens := s.valTokens + amount,
      valShares := s.valShares + issued,
      delShares := s.delShares + issued,
      bondedPool := s.bondedPool + amount }

/-- Modelled from the spec: burning `shares` delegation shares removes them
from the delegation and the validator and returns their token value at the
validator's exchange rate, floor-rounded toward the pool. -/
def unbond (s : KeeperState) (shares : ℚ) : KeeperState × ℤ :=
  let rate := if s.valShares = 0 then 1 else (s.valTokens : ℚ) / s.valShares
  let amount := ⌊rate * shares⌋
  ({ s with
      delShares := s.delShares - shares,
      valShares := s.valShares - shares,
      valTokens := s.valTokens - amount }, amount)

/-- Modelled from the spec: `Undelegate` fails with `MaxEntriesExceeded`
when the pair already holds `maxEntries` pending entries (the error return
carries no state, so the caller's state is unchanged); otherwise it burns
the shares via `unbond`, moves the token value from the bonded to the
not-bonded pool, and appends an entry completing at `now +
unbondingPeriod`. -/
def undelegate (ps : StakingParams) (height now : ℤ) (s : KeeperState)
    (shares : ℚ) : Except StakingError (KeeperState × ℤ) :=
  if ps.maxEntries ≤ s.ubdEntries.length then .error .maxEntriesExceeded
  else
    let r := unbond s shares
    let completionTime := now + ps.unbondingPeriod
    .ok ({ r.1 with
        bondedPool := r.1.bondedPool - r.2,
        notBondedPool := r.1.notBondedPool + r.2,
        ubdEntries := r.1.ubdEntries ++ [⟨height, completionTime, r.2, r.2⟩] },
      completionTime)

/-- Modelled from the spec: the maturation sweep removes every entry whose
completion time has passed and releases its balance from the not-bonded
pool. -/
def completeUnbonding (now : ℤ) (s : KeeperState) : KeeperState :=
  let matured := s.ubdEntries.filter (fun e => e.completionTime ≤ now)
  { s with
      ubdEntries := s.ubdEntries.filter (fun e => now < e.completionTime),
      notBondedPool := s.notBondedPool - (matured.map (fun e => e.balance)).sum }

/-- C6: delegating 10 tokens to a fresh validator yields a delegation of 10
shares; undelegating 6 leaves 4 delegation shares and 4 validator tokens,
the burn returns 6 tokens, and the pair gains an unbonding entry of balance
6 whose completion time lies in the future. -/
theorem delegate_undelegate_scenario (ps : StakingParams)
    (height now pb pnb : ℤ)
    (hper : 0 < ps.unbondingPeriod) (hmax : 0 < ps.maxEntries) :
    (delegate ⟨0, 0, 0, pb, pnb, []⟩ 10).delShares = 10 ∧
    ∃ s2 ct,
      undelegate ps height now (delegate ⟨0, 0, 0, pb, pnb, []⟩ 10) 6 =
        .ok (s2, ct) ∧
      s2.delShares = 4 ∧
      s2.valTokens = 4 ∧
      (unbond (delegate ⟨0, 0, 0, pb, pnb, []⟩ 10) 6).2 = 6 ∧
      s2.ubdEntries = [⟨height, now + ps.unbondingPeriod, 6, 6⟩] ∧
      now < ct := by
  have hs1 : delegate ⟨0, 0, 0, pb, pnb, []⟩ 10 =
      (⟨10, 10, 10, pb + 10, pnb, []⟩ : KeeperState) := by
    simp [delegate]
  have hub : unbond ⟨10, 10, 10, pb + 10, pnb, []⟩ 6 =
      ((⟨4, 4, 4, pb + 10, pnb, []⟩ : KeeperState), 6) := by
    simp only [unbond]
    norm_num
  have hu : undelegate ps height now
      (⟨10, 10, 10, pb + 10, pnb, []⟩ : KeeperState) 6 =
      .ok (⟨4, 4, 4, pb + 10 - 6, pnb + 6,
        [⟨height, now + ps.unbondingPeriod, 6, 6⟩]⟩, now + ps.unbondingPeriod) := by
    unfold undelegate
    rw [if_neg (by simp; omega)]
    simp [hub]
  constructor
  · simp [delegate]
  · refine ⟨⟨4, 4, 4, pb + 10 - 6, pnb + 6,
        [⟨height, now + ps.unbondingPeriod, 6, 6⟩]⟩,
      now + ps.unbondingPeriod, ?_, rfl, rfl, ?_, rfl, by omega⟩
    · rw [hs1]
      exact hu
    · rw [hs1, hub]

/-- Witness for C6 with a 7-block unbonding period and 5 maximum entries. -/
theorem delegate_undelegate_scenario_witness :
    (delegate ⟨0, 0, 0, 100, 50, []⟩ 10).delShares = 10 ∧
    ∃ s2 ct,
      undelegate ⟨7, 5⟩ 3 20 (delegate ⟨0, 0, 0, 100, 50, []⟩ 10) 6 =
        .ok (s2, ct) ∧
      s2.delShares = 4 ∧
      s2.valTokens = 4 ∧
      (unbond (delegate ⟨0, 0, 0, 100, 50, []⟩ 10) 6).2 = 6 ∧
      s2.ubdEntries = [⟨3, 20 + (7 : ℤ), 6, 6⟩] ∧
      (20 : ℤ) < ct :=
  delegate_undelegate_scenario ⟨7, 5⟩ 3 20 100 50 (by norm_num) (by norm_num)

/-- C7: when the pair already holds exactly `maxEntries` pending entries,
`Undelegate` fails with `MaxEntriesExceeded` (returning no new state, so
pools and the unbonding ledger are unchanged); once the maturation sweep has
removed a matured entry, a further undelegation against the same pair
succeeds. -/
theorem undelegate_maxEntries_backpressure (ps : StakingParams)
    (height now now2 : ℤ) (s : KeeperState) (shares shares2 : ℚ)
    (hfull : s.ubdEntries.length = ps.maxEntries)
    (hmat : ∃ e ∈ s.ubdEntries, e.completionTime ≤ now2) :
    undelegate ps height now s shares = .error .maxEntriesExceeded ∧
    ∃ s2 ct,
      undelegate ps height now2 (completeUnbonding now2 s) shares2 =
        .ok (s2, ct) := by
  constructor
  · unfold undelegate
    rw [if_pos (le_of_eq hfull.symm)]
  · obtain ⟨e, he, hemat⟩ := hmat
    have hshort :
        (s.ubdEntries.filter (fun e => now2 < e.completionTime)).length <
          s.ubdEntries.length :=
      List.length_filter_lt_length_iff_exists.mpr
        ⟨e, he, by simpa using hemat⟩
    unfold undelegate
    rw [if_neg (by simp only [completeUnbonding]; omega)]
    exact ⟨_, _, rfl⟩

/-- Witness for C7: one slot, occupied by an entry maturing at time 3; the
undelegate fails, and succeeds again after the sweep at time 3. -/
theorem undelegate_maxEntries_backpressure_witness :
    undelegate ⟨7, 1⟩ 0 0 ⟨4, 4, 4, 50, 10, [⟨0, 3, 1, 1⟩]⟩ 1 =
      .error .maxEntriesExceeded ∧
    ∃ s2 ct,
      undelegate ⟨7, 1⟩ 0 3 (completeUnbonding 3 ⟨4, 4, 4, 50, 10, [⟨0, 3, 1, 1⟩]⟩) 1 =
        .ok (s2, ct) :=
  undelegate_maxEntries_backpressure ⟨7, 1⟩ 0 0 3 ⟨4, 4, 4, 50, 10, [⟨0, 3, 1, 1⟩]⟩ 1 1
    (by simp) ⟨⟨0, 3, 1, 1⟩, by simp, by norm_num⟩

end CosmosSDK
